import Mathlib

/-!
Shallow embedding of the DSATUR graph-coloring function `dsatur` from
`src/dsatur.py`.

Modelling decisions, all traceable to CPython semantics of the source:
* a Python dict `graph` is an association list `List (Nat × List Nat)`;
  `graph.keys()` iterates in insertion order, i.e. in list order;
* `colors` (dict) is an association list built by appending, since Python
  dict assignment of a fresh key appends it; lookups use `List.lookup`;
* `uncolored = set(graph.keys())` is a CPython set of small integers
  (the UI caps vertices at 1..20); such a set iterates in ascending
  numeric order, so it is modelled as the ascending sorted list of the
  keys, with `List.erase` for `set.remove`;
* Python `max(iterable, key=f)` keeps the first element and replaces the
  running best only when the key is strictly greater (`pyMaxBy`);
* Python tuple comparison `(a, b) < (c, d)` is the lexicographic order
  `pairLt`;
* the `while color in used_colors: color += 1` loop is `whileColor`;
* `max()` on an empty sequence raises `ValueError`; `dsatur` on the empty
  graph is therefore modelled as returning `none`, and `some` otherwise.
-/

abbrev Vtx := Nat

abbrev Graph := List (Vtx × List Vtx)

abbrev Coloring := List (Vtx × Nat)

/-- The vertex set of the graph, in dict (insertion) order: `graph.keys()`. -/
def verts (g : Graph) : List Vtx := g.map Prod.fst

/-- `graph[v]`: the neighbor list of `v` (`[]` when `v` is not a key;
the source only indexes existing keys). -/
def adj (g : Graph) (v : Vtx) : List Vtx := (g.lookup v).getD []

/-- `degree = {node: len(neighbors) ...}` from line 19 of the source. -/
def degree (g : Graph) (v : Vtx) : Nat := (adj g v).length

/-- `{colors[n] for n in l if n in colors}`: the set of colors assigned to
the already-colored vertices of the list `l`. -/
def usedColors (cs : Coloring) (l : List Vtx) : Finset Nat :=
  (l.filterMap (fun n => cs.lookup n)).toFinset

/-- `while color in used_colors: color += 1` (lines 44-45), with explicit
fuel so that the definition reduces; the loop body runs once per member of
`used_colors` at most, so any fuel above `used.card` is enough. -/
def whileColorF : Nat → Finset Nat → Nat → Nat
  | 0, _, c => c
  | fuel + 1, used, c => if c ∈ used then whileColorF fuel used (c + 1) else c

/-- `color = c; while color in used_colors: color += 1` (lines 43-45). -/
def whileColor (used : Finset Nat) (c : Nat) : Nat :=
  whileColorF (used.card + 1) used c

/-- The color the source assigns to `v` given the current `colors`:
the linear scan starting at 1 over `used_colors` (lines 42-45). -/
def assignColor (g : Graph) (cs : Coloring) (v : Vtx) : Nat :=
  whileColor (usedColors cs (adj g v)) 1

/-- Python tuple comparison on pairs of naturals: lexicographic, strict. -/
def pairLt (p q : Nat × Nat) : Prop :=
  p.1 < q.1 ∨ (p.1 = q.1 ∧ p.2 < q.2)

instance (p q : Nat × Nat) : Decidable (pairLt p q) :=
  inferInstanceAs (Decidable (_ ∨ _))

/-- Non-strict lexicographic order on pairs of naturals. -/
def lexLe (p q : Nat × Nat) : Prop := pairLt p q ∨ p = q

instance (p q : Nat × Nat) : Decidable (lexLe p q) :=
  inferInstanceAs (Decidable (_ ∨ _))

/-- Python `max(best, *l, key=key)` with comparison `lt`: the running best
is replaced only when the candidate's key is strictly greater, so the
first maximal element of the iteration wins. -/
def pyMaxAux {β : Type} (lt : β → β → Prop) [DecidableRel lt]
    (key : Vtx → β) (best : Vtx) : List Vtx → Vtx
  | [] => best
  | x :: xs => if lt (key best) (key x) then pyMaxAux lt key x xs
               else pyMaxAux lt key best xs

/-- Python `max(l, key=key)`: `none` models the `ValueError` raised on an
empty iterable. -/
def pyMaxBy {β : Type} (lt : β → β → Prop) [DecidableRel lt]
    (key : Vtx → β) : List Vtx → Option Vtx
  | [] => none
  | x :: xs => some (pyMaxAux lt key x xs)

/-- The working state of the main loop: `colors`, `dsat`, `uncolored`. -/
structure DState where
  colors : Coloring
  dsat : Vtx → Nat
  uncolored : List Vtx

/-- The selection key of line 39: `(dsat[x], degree[x])`. -/
def selKey (g : Graph) (dsat : Vtx → Nat) (x : Vtx) : Nat × Nat :=
  (dsat x, degree g x)

/-- Line 39: `max(uncolored, key=lambda x: (dsat[x], degree[x]))`. -/
def selectNext (g : Graph) (s : DState) : Option Vtx :=
  pyMaxBy pairLt (selKey g s.dsat) s.uncolored

/-- `len({colors[n] for n in graph[w] if n in colors})` (lines 34 and 54). -/
def dsatAt (g : Graph) (cs : Coloring) (w : Vtx) : Nat :=
  (usedColors cs (adj g w)).card

/-- Lines 32-34: after coloring the first vertex, each still-uncolored
neighbor's DSAT becomes the distinct-color count — with no fallback. -/
def updDsatFirst (g : Graph) (cs : Coloring) (uncol : List Vtx)
    (dsat : Vtx → Nat) (nbrs : List Vtx) : Vtx → Nat :=
  nbrs.foldl
    (fun d w =>
      if w ∈ uncol then fun x => if x = w then dsatAt g cs w else d x
      else d)
    dsat

/-- Lines 52-58: after each main-loop assignment, each still-uncolored
neighbor's DSAT becomes the distinct-color count, falling back to the
degree when the neighbor has no colored neighbor of its own. -/
def updDsatLoop (g : Graph) (cs : Coloring) (uncol : List Vtx)
    (dsat : Vtx → Nat) (nbrs : List Vtx) : Vtx → Nat :=
  nbrs.foldl
    (fun d w =>
      if w ∈ uncol then
        fun x =>
          if x = w then
            if usedColors cs (adj g w) = ∅ then degree g w else dsatAt g cs w
          else d x
      else d)
    dsat

/-- One iteration of the main loop (lines 38-58); the identity when
`uncolored` is empty. -/
def stepD (g : Graph) (s : DState) : DState :=
  match selectNext g s with
  | none => s
  | some v =>
    let c := assignColor g s.colors v
    let cs := s.colors ++ [(v, c)]
    let un := s.uncolored.erase v
    { colors := cs, dsat := updDsatLoop g cs un s.dsat (adj g v), uncolored := un }

/-- The state right before the main loop, given the first vertex chosen on
line 27: lines 17-34 of the source. -/
def initState (g : Graph) (first : Vtx) : DState :=
  let cs : Coloring := [(first, 1)]
  let un := ((verts g).insertionSort (· ≤ ·)).erase first
  { colors := cs
    dsat := updDsatFirst g cs un (fun v => degree g v) (adj g first)
    uncolored := un }

/-- The `while uncolored:` loop, run for `fuel` iterations. -/
def loop (g : Graph) : Nat → DState → DState
  | 0, s => s
  | n + 1, s => loop g n (stepD g s)

/-- The whole `dsatur` function. `none` models the `ValueError` that
`max(graph.keys(), ...)` raises on a graph with no vertices. -/
def dsatur (g : Graph) : Option Coloring :=
  match pyMaxBy (· < ·) (degree g) (verts g) with
  | none => none
  | some first =>
    some (loop g (initState g first).uncolored.length (initState g first)).colors

/-- The 4-vertex path of the spec's worked scenario:
`{1: [2], 2: [1, 3], 3: [2, 4], 4: [3]}`. -/
def path4 : Graph := [(1, [2]), (2, [1, 3]), (3, [2, 4]), (4, [3])]

/-- Invariant maintained by the algorithm from the first assignment to the
end of the main loop. -/
structure RunInv (g : Graph) (s : DState) : Prop where
  sorted : s.uncolored.Pairwise (· ≤ ·)
  perm : (s.colors.map Prod.fst ++ s.uncolored).Perm (verts g)
  proper : ∀ u cu v cv, (u, cu) ∈ s.colors → (v, cv) ∈ s.colors →
    u ≠ v → u ∈ adj g v → v ∈ adj g u → cu ≠ cv
  bound : ∀ v c, (v, c) ∈ s.colors → 1 ≤ c ∧ c ≤ degree g v + 1
  iso : ∀ v c, (v, c) ∈ s.colors → adj g v = [] → c = 1

/-- The adjacency is symmetric: every recorded edge is recorded in both
directions. -/
def SymAdj (g : Graph) : Prop := ∀ u v, v ∈ adj g u → u ∈ adj g v

/-- The stored DSAT of every uncolored vertex is the number of distinct
colors among its colored neighbors, or its degree when it has no colored
neighbor. -/
def DsatOK (g : Graph) (s : DState) : Prop :=
  ∀ w ∈ s.uncolored,
    s.dsat w = if usedColors s.colors (adj g w) = ∅ then degree g w
               else (usedColors s.colors (adj g w)).card

/-! ### The color scan -/

lemma whileColorF_spec (used : Finset Nat) :
    ∀ fuel c, (used.filter (fun d => c ≤ d)).card < fuel →
      whileColorF fuel used c ∉ used ∧ c ≤ whileColorF fuel used c ∧
        ∀ d, c ≤ d → d < whileColorF fuel used c → d ∈ used := by
  intro fuel
  induction fuel with
  | zero => intro c h; omega
  | succ f ih =>
    intro c h
    by_cases hc : c ∈ used
    · have hsplit : used.filter (fun d => c ≤ d)
          = insert c (used.filter (fun d => c + 1 ≤ d)) := by
        ext d
        simp only [Finset.mem_filter, Finset.mem_insert]
        constructor
        · rintro ⟨hd, hcd⟩
          rcases Nat.eq_or_lt_of_le hcd with h1 | h1
          · exact Or.inl h1.symm
          · exact Or.inr ⟨hd, h1⟩
        · rintro (rfl | ⟨hd, hcd⟩)
          · exact ⟨hc, le_rfl⟩
          · exact ⟨hd, by omega⟩
      have hnotin : c ∉ used.filter (fun d => c + 1 ≤ d) := by
        simp [Finset.mem_filter]
      have hcard : (used.filter (fun d => c + 1 ≤ d)).card < f := by
        have := Finset.card_insert_of_not_mem hnotin
        rw [hsplit, this] at h
        omega
      have hrec := ih (c + 1) hcard
      have hstep : whileColorF (f + 1) used c = whileColorF f used (c + 1) := by
        simp [whileColorF, hc]
      rw [hstep]
      refine ⟨hrec.1, by omega, ?_⟩
      intro d hcd hdlt
      rcases Nat.eq_or_lt_of_le hcd with h1 | h1
      · exact h1 ▸ hc
      · exact hrec.2.2 d h1 hdlt
    · have hstep : whileColorF (f + 1) used c = c := by
        simp [whileColorF, hc]
      rw [hstep]
      exact ⟨hc, le_rfl, fun d h1 h2 => absurd (lt_of_le_of_lt h1 h2) (lt_irrefl _)⟩

lemma whileColor_spec (used : Finset Nat) (c : Nat) :
    whileColor used c ∉ used ∧ c ≤ whileColor used c ∧
      ∀ d, c ≤ d → d < whileColor used c → d ∈ used :=
  whileColorF_spec used (used.card + 1) c
    (lt_of_le_of_lt (Finset.card_filter_le _ _) (Nat.lt_succ_self _))

lemma whileColor_le (used : Finset Nat) : whileColor used 1 ≤ used.card + 1 := by
  have hspec := whileColor_spec used 1
  have hsub : Finset.Ico 1 (whileColor used 1) ⊆ used := by
    intro d hd
    rw [Finset.mem_Ico] at hd
    exact hspec.2.2 d hd.1 hd.2
  have := Finset.card_le_card hsub
  rw [Nat.card_Ico] at this
  omega

lemma whileColor_empty : whileColor ∅ 1 = 1 := by decide

/-! ### Lookup in association lists -/

lemma lookup_mem {α : Type} {l : List (Vtx × α)} {a : Vtx} {b : α}
    (h : l.lookup a = some b) : (a, b) ∈ l := by
  induction l with
  | nil => simp [List.lookup] at h
  | cons p l ih =>
    obtain ⟨k, v⟩ := p
    by_cases hak : a = k
    · subst hak
      simp [List.lookup] at h
      simp [h]
    · rw [List.lookup, beq_false_of_ne hak] at h
      exact List.mem_cons_of_mem _ (ih h)

lemma lookup_isSome_of_mem {α : Type} {l : List (Vtx × α)} {a : Vtx} {b : α}
    (h : (a, b) ∈ l) : ∃ c, l.lookup a = some c := by
  induction l with
  | nil => simp at h
  | cons p l ih =>
    obtain ⟨k, v⟩ := p
    by_cases hak : a = k
    · subst hak
      exact ⟨v, by rw [List.lookup, beq_self_eq_true]⟩
    · rw [List.lookup, beq_false_of_ne hak]
      rcases List.mem_cons.mp h with h1 | h1
      · exact absurd (congrArg Prod.fst h1) hak
      · exact ih h1

lemma lookup_of_mem_nodup {α : Type} {l : List (Vtx × α)} {a : Vtx} {b : α}
    (hnd : (l.map Prod.fst).Nodup) (h : (a, b) ∈ l) : l.lookup a = some b := by
  induction l with
  | nil => simp at h
  | cons p l ih =>
    obtain ⟨k, v⟩ := p
    rw [List.map_cons, List.nodup_cons] at hnd
    rcases List.mem_cons.mp h with h1 | h1
    · cases h1
      rw [List.lookup, beq_self_eq_true]
    · have hak : a ≠ k := by
        rintro rfl
        exact hnd.1 (List.mem_map.mpr ⟨(a, b), h1, rfl⟩)
      rw [List.lookup, beq_false_of_ne hak]
      exact ih hnd.2 h1

lemma lookup_append_of_some {α : Type} {l₁ : List (Vtx × α)} {a : Vtx} {b : α}
    (l₂ : List (Vtx × α)) (h : l₁.lookup a = some b) :
    (l₁ ++ l₂).lookup a = some b := by
  induction l₁ with
  | nil => simp [List.lookup] at h
  | cons p l ih =>
    obtain ⟨k, v⟩ := p
    by_cases hak : a = k
    · subst hak
      simp [List.lookup] at h ⊢
      exact h
    · rw [List.lookup, beq_false_of_ne hak] at h
      rw [List.cons_append, List.lookup, beq_false_of_ne hak]
      exact ih h

lemma lookup_append_of_none {α : Type} {l₁ : List (Vtx × α)} {a : Vtx}
    (l₂ : List (Vtx × α)) (h : l₁.lookup a = none) :
    (l₁ ++ l₂).lookup a = l₂.lookup a := by
  induction l₁ with
  | nil => simp
  | cons p l ih =>
    obtain ⟨k, v⟩ := p
    by_cases hak : a = k
    · subst hak
      rw [List.lookup, beq_self_eq_true] at h
      exact absurd h (by simp)
    · rw [List.lookup, beq_false_of_ne hak] at h
      rw [List.cons_append, List.lookup, beq_false_of_ne hak]
      exact ih h

lemma lookup_singleton_some {α : Type} {v a : Vtx} {c b : α}
    (h : List.lookup a [(v, c)] = some b) : a = v ∧ b = c := by
  by_cases hav : a = v
  · subst hav
    rw [List.lookup, beq_self_eq_true] at h
    exact ⟨rfl, by simpa using h.symm⟩
  · rw [List.lookup, beq_false_of_ne hav] at h
    simp [List.lookup] at h

lemma lookup_append_sing_ne {α : Type} {cs : List (Vtx × α)} {v n : Vtx} {c : α}
    (hne : n ≠ v) : (cs ++ [(v, c)]).lookup n = cs.lookup n := by
  cases h : cs.lookup n with
  | some b => exact lookup_append_of_some _ h
  | none =>
    rw [lookup_append_of_none _ h, List.lookup, beq_false_of_ne hne]
    rfl

/-! ### usedColors -/

lemma mem_usedColors {cs : Coloring} {l : List Vtx} {c : Nat} :
    c ∈ usedColors cs l ↔ ∃ n ∈ l, cs.lookup n = some c := by
  simp [usedColors, List.mem_toFinset, List.mem_filterMap]

lemma usedColors_card_le (cs : Coloring) (l : List Vtx) :
    (usedColors cs l).card ≤ l.length :=
  le_trans (List.toFinset_card_le _) (List.length_filterMap_le _ _)

lemma usedColors_nil (cs : Coloring) : usedColors cs [] = ∅ := rfl

lemma usedColors_append_sing {cs : Coloring} {v : Vtx} {c : Nat} {l : List Vtx}
    (hv : v ∉ l) : usedColors (cs ++ [(v, c)]) l = usedColors cs l := by
  ext x
  rw [mem_usedColors, mem_usedColors]
  constructor
  · rintro ⟨n, hn, hl⟩
    have hne : n ≠ v := fun h => hv (h ▸ hn)
    exact ⟨n, hn, by rwa [lookup_append_sing_ne hne] at hl⟩
  · rintro ⟨n, hn, hl⟩
    have hne : n ≠ v := fun h => hv (h ▸ hn)
    exact ⟨n, hn, by rwa [lookup_append_sing_ne hne]⟩

/-! ### The lexicographic order on selection keys -/

lemma lexLe_iff (p q : Nat × Nat) :
    lexLe p q ↔ p.1 < q.1 ∨ (p.1 = q.1 ∧ p.2 ≤ q.2) := by
  simp only [lexLe, pairLt, Prod.ext_iff]
  omega

lemma lexLe_refl (p : Nat × Nat) : lexLe p p := Or.inr rfl

lemma lexLe_trans {p q r : Nat × Nat} (h1 : lexLe p q) (h2 : lexLe q r) :
    lexLe p r := by
  rw [lexLe_iff] at *
  omega

lemma lexLe_antisymm {p q : Nat × Nat} (h1 : lexLe p q) (h2 : lexLe q p) :
    p = q := by
  rw [lexLe_iff] at *
  rw [Prod.ext_iff]
  omega

lemma pairLt_irrefl (p : Nat × Nat) : ¬ pairLt p p := by
  simp only [pairLt]
  omega

lemma pairLt_lexLe_trans {p q r : Nat × Nat} (h1 : pairLt p q) (h2 : lexLe q r) :
    pairLt p r := by
  rw [lexLe_iff] at h2
  simp only [pairLt] at *
  omega

lemma not_pairLt_iff (p q : Nat × Nat) : ¬ pairLt p q ↔ lexLe q p := by
  rw [lexLe_iff]
  simp only [pairLt]
  omega

/-! ### Python max semantics -/

lemma pyMaxAux_eq_or_mem {β : Type} (lt : β → β → Prop) [DecidableRel lt]
    (key : Vtx → β) :
    ∀ (l : List Vtx) (best : Vtx),
      pyMaxAux lt key best l = best ∨ pyMaxAux lt key best l ∈ l := by
  intro l
  induction l with
  | nil => intro best; exact Or.inl rfl
  | cons x xs ih =>
    intro best
    rw [pyMaxAux]
    split
    · rcases ih x with h | h
      · exact Or.inr (by rw [h]; exact List.mem_cons_self x xs)
      · exact Or.inr (List.mem_cons_of_mem _ h)
    · rcases ih best with h | h
      · exact Or.inl h
      · exact Or.inr (List.mem_cons_of_mem _ h)

lemma pyMaxBy_mem {β : Type} {lt : β → β → Prop} [DecidableRel lt]
    {key : Vtx → β} {l : List Vtx} {m : Vtx} (h : pyMaxBy lt key l = some m) :
    m ∈ l := by
  cases l with
  | nil => simp [pyMaxBy] at h
  | cons x xs =>
    rw [pyMaxBy, Option.some.injEq] at h
    rcases pyMaxAux_eq_or_mem lt key xs x with h1 | h1
    · rw [← h, h1]; exact List.mem_cons_self x xs
    · rw [← h]; exact List.mem_cons_of_mem _ h1

lemma pyMaxBy_eq_none_iff {β : Type} (lt : β → β → Prop) [DecidableRel lt]
    (key : Vtx → β) (l : List Vtx) : pyMaxBy lt key l = none ↔ l = [] := by
  cases l <;> simp [pyMaxBy]

/-- The running-best invariant of Python `max` with the lexicographic key:
over a weakly ascending candidate list, the result dominates every
candidate and, on a full key tie, is the least identifier. -/
lemma pyMaxAux_spec (key : Vtx → Nat × Nat) :
    ∀ (l : List Vtx) (best : Vtx), l.Pairwise (· ≤ ·) → (∀ x ∈ l, best ≤ x) →
      (pyMaxAux pairLt key best l = best ∨ pyMaxAux pairLt key best l ∈ l) ∧
        lexLe (key best) (key (pyMaxAux pairLt key best l)) ∧
        (key (pyMaxAux pairLt key best l) = key best →
          pyMaxAux pairLt key best l = best) ∧
        ∀ x ∈ l, lexLe (key x) (key (pyMaxAux pairLt key best l)) ∧
          (key x = key (pyMaxAux pairLt key best l) →
            pyMaxAux pairLt key best l ≤ x) := by
  intro l
  induction l with
  | nil =>
    intro best _ _
    exact ⟨Or.inl rfl, lexLe_refl _, fun _ => rfl, by simp⟩
  | cons x xs ih =>
    intro best hsort hdom
    rw [List.pairwise_cons] at hsort
    rw [pyMaxAux]
    split
    · -- the candidate strictly beats the running best: replace it
      rename_i hlt
      obtain ⟨hm, hbest, htie, hall⟩ := ih x hsort.2 hsort.1
      refine ⟨?_, ?_, ?_, ?_⟩
      · rcases hm with h | h
        · exact Or.inr (by rw [h]; exact List.mem_cons_self x xs)
        · exact Or.inr (List.mem_cons_of_mem _ h)
      · exact Or.inl (pairLt_lexLe_trans hlt hbest)
      · intro he
        exact absurd (he ▸ pairLt_lexLe_trans hlt hbest) (pairLt_irrefl _)
      · intro z hz
        rcases List.mem_cons.mp hz with rfl | hz
        · exact ⟨hbest, fun he => le_of_eq (htie he.symm)⟩
        · exact hall z hz
    · -- the candidate does not beat the running best: keep it
      rename_i hnlt
      have hxb : lexLe (key x) (key best) := (not_pairLt_iff _ _).mp hnlt
      obtain ⟨hm, hbest, htie, hall⟩ :=
        ih best hsort.2 (fun y hy => le_trans (hdom x (List.mem_cons_self x xs))
          (hsort.1 y hy))
      refine ⟨?_, hbest, htie, ?_⟩
      · rcases hm with h | h
        · exact Or.inl h
        · exact Or.inr (List.mem_cons_of_mem _ h)
      · intro z hz
        rcases List.mem_cons.mp hz with rfl | hz
        · refine ⟨lexLe_trans hxb hbest, fun he => ?_⟩
          have h1 : lexLe (key (pyMaxAux pairLt key best xs)) (key best) := by
            rw [← he]; exact hxb
          have h2 := htie (lexLe_antisymm h1 hbest)
          rw [h2]
          exact hdom z (List.mem_cons_self z xs)
        · exact hall z hz

/-- Python `max(l, key=(dsat, degree))` over a weakly ascending list: the
result is a member, lexicographically dominates every member, and wins
full-key ties by least identifier. -/
lemma pyMaxBy_spec {key : Vtx → Nat × Nat} {l : List Vtx} {m : Vtx}
    (hsort : l.Pairwise (· ≤ ·)) (h : pyMaxBy pairLt key l = some m) :
    m ∈ l ∧ (∀ x ∈ l, lexLe (key x) (key m)) ∧
      ∀ x ∈ l, key x = key m → m ≤ x := by
  cases l with
  | nil => simp [pyMaxBy] at h
  | cons x xs =>
    rw [pyMaxBy, Option.some.injEq] at h
    rw [List.pairwise_cons] at hsort
    obtain ⟨hm, hbest, htie, hall⟩ := pyMaxAux_spec key xs x hsort.2 hsort.1
    subst h
    refine ⟨?_, ?_, ?_⟩
    · rcases hm with h | h
      · rw [h]; exact List.mem_cons_self x xs
      · exact List.mem_cons_of_mem _ h
    · intro z hz
      rcases List.mem_cons.mp hz with rfl | hz
      · exact hbest
      · exact (hall z hz).1
    · intro z hz he
      rcases List.mem_cons.mp hz with rfl | hz
      · exact le_of_eq (htie he.symm)
      · exact (hall z hz).2 he

/-! ### The DSAT update folds -/

lemma foldlUpd_apply (val : Vtx → Nat) (uncol : List Vtx) :
    ∀ (nbrs : List Vtx) (dsat : Vtx → Nat) (w : Vtx),
      (nbrs.foldl
        (fun d x => if x ∈ uncol then fun y => if y = x then val x else d y else d)
        dsat) w
        = if w ∈ nbrs ∧ w ∈ uncol then val w else dsat w := by
  intro nbrs
  induction nbrs with
  | nil => intro dsat w; simp
  | cons x xs ih =>
    intro dsat w
    rw [List.foldl_cons, ih]
    by_cases hwu : w ∈ uncol <;> by_cases hwxs : w ∈ xs <;>
      by_cases hwx : w = x <;> by_cases hxu : x ∈ uncol <;>
      simp_all [List.mem_cons]

lemma updDsatLoop_apply (g : Graph) (cs : Coloring) (uncol : List Vtx)
    (dsat : Vtx → Nat) (nbrs : List Vtx) (w : Vtx) :
    updDsatLoop g cs uncol dsat nbrs w
      = if w ∈ nbrs ∧ w ∈ uncol then
          (if usedColors cs (adj g w) = ∅ then degree g w else dsatAt g cs w)
        else dsat w :=
  foldlUpd_apply
    (fun x => if usedColors cs (adj g x) = ∅ then degree g x else dsatAt g cs x)
    uncol nbrs dsat w

lemma updDsatFirst_apply (g : Graph) (cs : Coloring) (uncol : List Vtx)
    (dsat : Vtx → Nat) (nbrs : List Vtx) (w : Vtx) :
    updDsatFirst g cs uncol dsat nbrs w
      = if w ∈ nbrs ∧ w ∈ uncol then dsatAt g cs w else dsat w :=
  foldlUpd_apply (fun x => dsatAt g cs x) uncol nbrs dsat w

/-! ### The run invariant -/

lemma RunInv.nodups {g : Graph} {s : DState} (hnd : (verts g).Nodup)
    (h : RunInv g s) :
    (s.colors.map Prod.fst).Nodup ∧ s.uncolored.Nodup ∧
      (s.colors.map Prod.fst).Disjoint s.uncolored :=
  List.nodup_append.mp (h.perm.symm.nodup hnd)

lemma initState_inv {g : Graph} {first : Vtx}
    (hfirst : pyMaxBy (· < ·) (degree g) (verts g) = some first) :
    RunInv g (initState g first) := by
  have hmem : first ∈ verts g := pyMaxBy_mem hfirst
  have hmem' : first ∈ (verts g).insertionSort (fun a b => a ≤ b) :=
    (List.perm_insertionSort _ (verts g)).mem_iff.mpr hmem
  refine ⟨?_, ?_, ?_, ?_, ?_⟩
  · exact (List.sorted_insertionSort _ (verts g)).sublist
      (List.erase_sublist first _)
  · show (first :: (((verts g).insertionSort _).erase first)).Perm (verts g)
    exact ((List.perm_cons_erase hmem').symm).trans
      (List.perm_insertionSort _ (verts g))
  · intro u cu v cv hu hv hne _ _
    simp only [initState, List.mem_singleton, Prod.mk.injEq] at hu hv
    exact absurd (hu.1.trans hv.1.symm) hne
  · intro v c hv
    simp only [initState, List.mem_singleton, Prod.mk.injEq] at hv
    obtain ⟨rfl, rfl⟩ := hv
    omega
  · intro v c hv _
    simp only [initState, List.mem_singleton, Prod.mk.injEq] at hv
    exact hv.2

lemma selectNext_mem {g : Graph} {s : DState} {v : Vtx}
    (h : selectNext g s = some v) : v ∈ s.uncolored :=
  pyMaxBy_mem h

lemma stepD_none {g : Graph} {s : DState} (h : selectNext g s = none) :
    stepD g s = s := by
  rw [stepD, h]

lemma stepD_some {g : Graph} {s : DState} {v : Vtx}
    (h : selectNext g s = some v) :
    stepD g s =
      { colors := s.colors ++ [(v, assignColor g s.colors v)]
        dsat := updDsatLoop g (s.colors ++ [(v, assignColor g s.colors v)])
          (s.uncolored.erase v) s.dsat (adj g v)
        uncolored := s.uncolored.erase v } := by
  rw [stepD, h]

lemma stepD_inv {g : Graph} {s : DState} (hnd : (verts g).Nodup)
    (h : RunInv g s) : RunInv g (stepD g s) := by
  cases hsel : selectNext g s with
  | none => rw [stepD_none hsel]; exact h
  | some v =>
    have hv : v ∈ s.uncolored := selectNext_mem hsel
    have hkn := (h.nodups hnd).1
    have hcolor := whileColor_spec (usedColors s.colors (adj g v)) 1
    rw [stepD_some hsel]
    refine ⟨?_, ?_, ?_, ?_, ?_⟩
    · exact h.sorted.sublist (List.erase_sublist v _)
    · show ((s.colors ++ [(v, assignColor g s.colors v)]).map Prod.fst
          ++ s.uncolored.erase v).Perm (verts g)
      rw [List.map_append, List.append_assoc]
      show (s.colors.map Prod.fst ++ (v :: s.uncolored.erase v)).Perm (verts g)
      exact (((List.perm_cons_erase hv).symm).append_left
        (s.colors.map Prod.fst)).trans h.perm
    · intro u cu w cw hu hw hne hadj1 hadj2
      rcases List.mem_append.mp hu with hu' | hu' <;>
        rcases List.mem_append.mp hw with hw' | hw'
      · exact h.proper u cu w cw hu' hw' hne hadj1 hadj2
      · -- the second vertex is the newly colored one
        rw [List.mem_singleton, Prod.mk.injEq] at hw'
        obtain ⟨rfl, rfl⟩ := hw'
        have hlk : s.colors.lookup u = some cu := lookup_of_mem_nodup hkn hu'
        have hcu : cu ∈ usedColors s.colors (adj g w) :=
          mem_usedColors.mpr ⟨u, hadj1, hlk⟩
        intro heq
        subst heq
        exact hcolor.1 hcu
      · -- the first vertex is the newly colored one
        rw [List.mem_singleton, Prod.mk.injEq] at hu'
        obtain ⟨rfl, rfl⟩ := hu'
        have hlk : s.colors.lookup w = some cw := lookup_of_mem_nodup hkn hw'
        have hcw : cw ∈ usedColors s.colors (adj g u) :=
          mem_usedColors.mpr ⟨w, hadj2, hlk⟩
        intro heq
        rw [← heq] at hcw
        exact hcolor.1 hcw
      · rw [List.mem_singleton, Prod.mk.injEq] at hu' hw'
        exact absurd (hu'.1.trans hw'.1.symm) hne
    · intro w cw hmem
      rcases List.mem_append.mp hmem with h' | h'
      · exact h.bound w cw h'
      · rw [List.mem_singleton, Prod.mk.injEq] at h'
        obtain ⟨rfl, rfl⟩ := h'
        have h1 := hcolor.2.1
        have h2 := whileColor_le (usedColors s.colors (adj g w))
        have h3 := usedColors_card_le s.colors (adj g w)
        unfold assignColor
        constructor
        · exact h1
        · unfold degree at *
          omega
    · intro w cw hmem hadj
      rcases List.mem_append.mp hmem with h' | h'
      · exact h.iso w cw h' hadj
      · rw [List.mem_singleton, Prod.mk.injEq] at h'
        obtain ⟨rfl, rfl⟩ := h'
        rw [assignColor, hadj, usedColors_nil, whileColor_empty]

lemma loop_inv {g : Graph} (hnd : (verts g).Nodup) :
    ∀ (n : Nat) (s : DState), RunInv g s → RunInv g (loop g n s) := by
  intro n
  induction n with
  | zero => intro s h; exact h
  | succ m ih => intro s h; exact ih (stepD g s) (stepD_inv hnd h)

lemma loop_empties {g : Graph} :
    ∀ (n : Nat) (s : DState), s.uncolored.length = n →
      (loop g n s).uncolored = [] := by
  intro n
  induction n with
  | zero => intro s h; exact List.length_eq_zero.mp h
  | succ m ih =>
    intro s h
    cases hsel : selectNext g s with
    | none =>
      have : s.uncolored = [] := (pyMaxBy_eq_none_iff _ _ _).mp hsel
      rw [this] at h
      simp at h
    | some v =>
      have hv : v ∈ s.uncolored := selectNext_mem hsel
      show (loop g m (stepD g s)).uncolored = []
      apply ih
      rw [stepD_some hsel]
      show (s.uncolored.erase v).length = m
      rw [List.length_erase_of_mem hv, h]
      omega

/-- Every successful run of `dsatur` ends in a state with no uncolored
vertex whose coloring is the returned one and which satisfies the run
invariant. -/
lemma dsatur_some_inv {g : Graph} {a : Coloring} (hnd : (verts g).Nodup)
    (hrun : dsatur g = some a) :
    ∃ s : DState, s.colors = a ∧ s.uncolored = [] ∧ RunInv g s := by
  cases hfirst : pyMaxBy (· < ·) (degree g) (verts g) with
  | none => rw [dsatur, hfirst] at hrun; cases hrun
  | some first =>
    rw [dsatur, hfirst, Option.some.injEq] at hrun
    exact ⟨loop g (initState g first).uncolored.length (initState g first),
      hrun, loop_empties _ _ rfl,
      loop_inv hnd _ _ (initState_inv hfirst)⟩

lemma dsatur_eq_none_iff (g : Graph) : dsatur g = none ↔ g = [] := by
  cases hfirst : pyMaxBy (· < ·) (degree g) (verts g) with
  | none =>
    have hv : verts g = [] := (pyMaxBy_eq_none_iff _ _ _).mp hfirst
    have hg : g = [] := by
      cases g with
      | nil => rfl
      | cons p l => simp [verts] at hv
    rw [dsatur, hfirst]
    simp [hg]
  | some first =>
    rw [dsatur, hfirst]
    simp only [iff_false_intro (Option.some_ne_none _), false_iff]
    intro hg
    subst hg
    rw [show verts [] = [] from rfl] at hfirst
    rw [(pyMaxBy_eq_none_iff (· < ·) (degree []) []).mpr rfl] at hfirst
    cases hfirst

/-! ### The DSAT invariant (needs a symmetric adjacency) -/

lemma initState_colors (g : Graph) (first : Vtx) :
    (initState g first).colors = [(first, 1)] := rfl

lemma initState_uncolored (g : Graph) (first : Vtx) :
    (initState g first).uncolored
      = ((verts g).insertionSort (fun a b => a ≤ b)).erase first := rfl

lemma initState_dsat (g : Graph) (first : Vtx) :
    (initState g first).dsat
      = updDsatFirst g [(first, 1)]
          (((verts g).insertionSort (fun a b => a ≤ b)).erase first)
          (fun v => degree g v) (adj g first) := rfl

lemma initState_dsatOK {g : Graph} {first : Vtx} (hsym : SymAdj g)
    (hnd : (verts g).Nodup) : DsatOK g (initState g first) := by
  intro w hw
  rw [initState_uncolored] at hw
  have hsortnd : ((verts g).insertionSort (fun a b => a ≤ b)).Nodup :=
    (List.perm_insertionSort _ (verts g)).symm.nodup hnd
  rw [initState_colors, initState_dsat, updDsatFirst_apply]
  by_cases hcase : w ∈ adj g first
  · rw [if_pos ⟨hcase, hw⟩]
    have h1 : (1 : Nat) ∈ usedColors [(first, 1)] (adj g w) := by
      refine mem_usedColors.mpr ⟨first, hsym first w hcase, ?_⟩
      rw [List.lookup, beq_self_eq_true]
    rw [if_neg (Finset.ne_empty_of_mem h1)]
    rfl
  · rw [if_neg (fun hc => hcase hc.1)]
    have hempty : usedColors [(first, 1)] (adj g w) = ∅ := by
      rw [Finset.eq_empty_iff_forall_not_mem]
      intro x hx
      obtain ⟨n, hn, hlk⟩ := mem_usedColors.mp hx
      obtain ⟨rfl, -⟩ := lookup_singleton_some hlk
      exact hcase (hsym w n hn)
    rw [if_pos hempty]

lemma stepD_dsatOK {g : Graph} {s : DState} (hsym : SymAdj g)
    (hnd : (verts g).Nodup) (hinv : RunInv g s) (hds : DsatOK g s) :
    DsatOK g (stepD g s) := by
  cases hsel : selectNext g s with
  | none => rw [stepD_none hsel]; exact hds
  | some v =>
    have hun : s.uncolored.Nodup := (hinv.nodups hnd).2.1
    rw [stepD_some hsel]
    intro w hw
    have hw' : w ∈ s.uncolored := List.mem_of_mem_erase hw
    show updDsatLoop g (s.colors ++ [(v, assignColor g s.colors v)])
        (s.uncolored.erase v) s.dsat (adj g v) w = _
    rw [updDsatLoop_apply]
    by_cases hcase : w ∈ adj g v
    · rw [if_pos ⟨hcase, hw⟩]
      rfl
    · rw [if_neg (fun hc => hcase hc.1)]
      have hvnot : v ∉ adj g w := fun hmem => hcase (hsym w v hmem)
      show s.dsat w = _
      rw [show usedColors (s.colors ++ [(v, assignColor g s.colors v)]) (adj g w)
          = usedColors s.colors (adj g w) from usedColors_append_sing hvnot]
      exact hds w hw'

lemma loop_dsatOK {g : Graph} (hsym : SymAdj g) (hnd : (verts g).Nodup) :
    ∀ (n : Nat) (s : DState), RunInv g s → DsatOK g s →
      DsatOK g (loop g n s) := by
  intro n
  induction n with
  | zero => intro s _ hds; exact hds
  | succ m ih =>
    intro s hinv hds
    exact ih (stepD g s) (stepD_inv hnd hinv) (stepD_dsatOK hsym hnd hinv hds)

/-! ### Remaining helpers -/

lemma lookup_eq_none_of_not_mem {α : Type} {l : List (Vtx × α)} {a : Vtx}
    (h : a ∉ l.map Prod.fst) : l.lookup a = none := by
  induction l with
  | nil => rfl
  | cons p l ih =>
    obtain ⟨k, v⟩ := p
    rw [List.map_cons, List.mem_cons] at h
    push_neg at h
    rw [List.lookup, beq_false_of_ne h.1]
    exact ih h.2

lemma adj_of_not_mem_verts {g : Graph} {u : Vtx} (h : u ∉ verts g) :
    adj g u = [] := by
  rw [adj, lookup_eq_none_of_not_mem h]
  rfl

/-- The decidable, vertex-set-bounded form of `SymAdj` implies it. -/
lemma symAdj_of_symAdjB {g : Graph}
    (h : ∀ u ∈ verts g, ∀ v ∈ adj g u, u ∈ adj g v) : SymAdj g := by
  intro u v hv
  by_cases hu : u ∈ verts g
  · exact h u hu v hv
  · rw [adj_of_not_mem_verts hu] at hv
    cases hv

/-- A vertex not yet colored contributes nothing to its own
`used_colors` set, so occurrences of `v` in its own neighbor list are
inert at assignment time. -/
lemma usedColors_filter_self {cs : Coloring} {v : Vtx} (l : List Vtx)
    (h : cs.lookup v = none) :
    usedColors cs l = usedColors cs (l.filter (fun w => w ≠ v)) := by
  ext x
  rw [mem_usedColors, mem_usedColors]
  constructor
  · rintro ⟨n, hn, hl⟩
    have hnv : n ≠ v := by
      rintro rfl
      rw [h] at hl
      cases hl
    exact ⟨n, List.mem_filter.mpr ⟨hn, decide_eq_true hnv⟩, hl⟩
  · rintro ⟨n, hn, hl⟩
    exact ⟨n, (List.mem_filter.mp hn).1, hl⟩

lemma length_filter_ne_lt {l : List Vtx} {v : Vtx} (h : v ∈ l) :
    (l.filter (fun w => w ≠ v)).length < l.length := by
  induction l with
  | nil => cases h
  | cons x xs ih =>
    by_cases hx : x = v
    · subst hx
      rw [List.filter_cons, if_neg (by simp)]
      have := List.length_filter_le (fun w => decide (w ≠ x)) xs
      simp only [List.length_cons]
      omega
    · have hvxs : v ∈ xs := by
        rcases List.mem_cons.mp h with h1 | h1
        · exact absurd h1.symm hx
        · exact h1
      rw [List.filter_cons]
      have := ih hvxs
      split <;> simp only [List.length_cons] <;> omega

/-- The key set of a successful run is a permutation of the vertex set. -/
lemma dsatur_keys_perm {g : Graph} {a : Coloring} (hnd : (verts g).Nodup)
    (hrun : dsatur g = some a) : (a.map Prod.fst).Perm (verts g) := by
  obtain ⟨s, rfl, hemp, hinv⟩ := dsatur_some_inv hnd hrun
  have hperm := hinv.perm
  rw [hemp, List.append_nil] at hperm
  exact hperm

/-! ### Claim theorems -/

/-- C1, counterexample: on the accepted asymmetric graph `{1: [2], 2: []}`
the edge (1,2) belongs to the symmetrized graph, yet both endpoints
receive color 1: the claim fails as stated. -/
theorem C1_counterexample :
    dsatur [(1, [2]), (2, [])] = some [(1, 1), (2, 1)] ∧
    (2 : Vtx) ∈ adj [(1, [2]), (2, [])] 1 ∧
    List.lookup 1 [((1 : Vtx), (1 : Nat)), (2, 1)]
      = List.lookup 2 [((1 : Vtx), (1 : Nat)), (2, 1)] := by decide

/-- C1 (amended): for every edge recorded in both directions (mutual
adjacency), the two endpoints of any returned assignment receive
different colors. -/
theorem C1_mutual_edge_proper (g : Graph) (a : Coloring) (u v : Vtx)
    (cu cv : Nat) (hnd : (verts g).Nodup) (hrun : dsatur g = some a)
    (hne : u ≠ v) (huv : u ∈ adj g v) (hvu : v ∈ adj g u)
    (hcu : a.lookup u = some cu) (hcv : a.lookup v = some cv) : cu ≠ cv := by
  obtain ⟨s, rfl, -, hinv⟩ := dsatur_some_inv hnd hrun
  exact hinv.proper u cu v cv (lookup_mem hcu) (lookup_mem hcv) hne huv hvu

theorem C1_witness :
    dsatur path4 = some [(2, 1), (3, 2), (1, 2), (4, 1)] ∧ (2 : Nat) ≠ 1 :=
  ⟨by decide,
   C1_mutual_edge_proper path4 [(2, 1), (3, 2), (1, 2), (4, 1)] 1 2 2 1
     (by decide) (by decide) (by decide) (by decide) (by decide)
     (by decide) (by decide)⟩

/-- C2: the color assigned at each main-loop step is the smallest positive
integer not used by the vertex's already-colored neighbors at that moment,
hence positive and at most degree+1; and every color in a returned
assignment is positive and at most the vertex's degree plus one. -/
theorem C2_smallest_available_color (g : Graph) (s : DState) (v : Vtx)
    (hsel : selectNext g s = some v) :
    (stepD g s).colors = s.colors ++ [(v, assignColor g s.colors v)] ∧
    assignColor g s.colors v ∉ usedColors s.colors (adj g v) ∧
    (∀ d, 0 < d → d < assignColor g s.colors v →
      d ∈ usedColors s.colors (adj g v)) ∧
    0 < assignColor g s.colors v ∧
    assignColor g s.colors v ≤ degree g v + 1 ∧
    ((verts g).Nodup → ∀ a u cu, dsatur g = some a → (u, cu) ∈ a →
      0 < cu ∧ cu ≤ degree g u + 1) := by
  have hspec := whileColor_spec (usedColors s.colors (adj g v)) 1
  have hle := whileColor_le (usedColors s.colors (adj g v))
  have hcard := usedColors_card_le s.colors (adj g v)
  refine ⟨by rw [stepD_some hsel], hspec.1, hspec.2.2, hspec.2.1, ?_, ?_⟩
  · unfold assignColor degree at *
    omega
  · intro hnd a u cu hrun hmem
    obtain ⟨t, rfl, -, hinv⟩ := dsatur_some_inv hnd hrun
    have := hinv.bound u cu hmem
    omega

theorem C2_witness :
    (stepD path4 (initState path4 2)).colors
        = (initState path4 2).colors
          ++ [(3, assignColor path4 (initState path4 2).colors 3)] ∧
    0 < assignColor path4 (initState path4 2).colors 3 ∧
    assignColor path4 (initState path4 2).colors 3 ≤ degree path4 3 + 1 := by
  have h := C2_smallest_available_color path4 (initState path4 2) 3 (by decide)
  exact ⟨h.1, h.2.2.2.1, h.2.2.2.2.1⟩

/-- C3: at the start of every main-loop iteration, the selected vertex is
an uncolored vertex whose (DSAT, degree) key lexicographically dominates
every uncolored vertex's key, and any full-key tie is resolved toward the
lowest vertex identifier. -/
theorem C3_selection_rule (g : Graph) (first : Vtx) (n : Nat) (v : Vtx)
    (hnd : (verts g).Nodup)
    (hfirst : pyMaxBy (· < ·) (degree g) (verts g) = some first)
    (hsel : selectNext g (loop g n (initState g first)) = some v) :
    v ∈ (loop g n (initState g first)).uncolored ∧
    (∀ x ∈ (loop g n (initState g first)).uncolored,
      lexLe (selKey g (loop g n (initState g first)).dsat x)
        (selKey g (loop g n (initState g first)).dsat v)) ∧
    ∀ x ∈ (loop g n (initState g first)).uncolored,
      selKey g (loop g n (initState g first)).dsat x
          = selKey g (loop g n (initState g first)).dsat v → v ≤ x := by
  have hinv := loop_inv hnd n _ (initState_inv hfirst)
  exact pyMaxBy_spec hinv.sorted hsel

theorem C3_witness :
    (3 : Vtx) ∈ (loop path4 0 (initState path4 2)).uncolored ∧
    lexLe (selKey path4 (loop path4 0 (initState path4 2)).dsat 1)
      (selKey path4 (loop path4 0 (initState path4 2)).dsat 3) :=
  ⟨(C3_selection_rule path4 2 0 3 (by decide) (by decide) (by decide)).1,
   (C3_selection_rule path4 2 0 3 (by decide) (by decide) (by decide)).2.1 1
     (by decide)⟩

/-- C4, counterexample: a graph whose single vertex references the
nonexistent neighbor 5, and one with a self-loop, are both accepted and
colored, with no error of any kind. -/
theorem C4_counterexample :
    dsatur [(1, [5])] = some [(1, 1)] ∧
    dsatur [(1, [1])] = some [(1, 1)] := by decide

/-- C4 (amended): `dsatur` fails exactly on the empty graph (Python's
`max` raises `ValueError` there); graphs with dangling neighbor
references or self-loops are accepted, invalid references being silently
skipped rather than rejected. -/
theorem C4_fails_iff_empty (g : Graph) : dsatur g = none ↔ g = [] :=
  dsatur_eq_none_iff g

/-- C5: a successful run colors each vertex exactly once: the key list of
the returned assignment is a duplicate-free permutation of the vertex
set, and its size is |V|. -/
theorem C5_termination_coverage (g : Graph) (a : Coloring)
    (hne : g ≠ []) (hnd : (verts g).Nodup)
    (hvalid : ∀ v ∈ verts g, ∀ w ∈ adj g v, w ∈ verts g)
    (hrun : dsatur g = some a) :
    (a.map Prod.fst).Perm (verts g) ∧ (a.map Prod.fst).Nodup ∧
      a.length = g.length := by
  have hperm := dsatur_keys_perm hnd hrun
  refine ⟨hperm, hperm.symm.nodup hnd, ?_⟩
  have hlen := hperm.length_eq
  rw [List.length_map, verts, List.length_map] at hlen
  exact hlen

theorem C5_witness :
    (([(2, 1), (3, 2), (1, 2), (4, 1)] : Coloring).map Prod.fst).Perm
        (verts path4) ∧
    ([(2, 1), (3, 2), (1, 2), (4, 1)] : Coloring).length = path4.length := by
  have h := C5_termination_coverage path4 [(2, 1), (3, 2), (1, 2), (4, 1)]
    (by decide) (by decide) (by decide) (by decide)
  exact ⟨h.1, h.2.2⟩

/-- C6: on the 4-vertex path the run returns exactly the expected
assignment, in the expected order of coloring (2 first, then 3, then 1,
then 4), mapping 1↦2, 2↦1, 3↦2, 4↦1. -/
theorem C6_worked_scenario :
    dsatur path4 = some [(2, 1), (3, 2), (1, 2), (4, 1)] ∧
    List.lookup 1 [((2 : Vtx), (1 : Nat)), (3, 2), (1, 2), (4, 1)] = some 2 ∧
    List.lookup 2 [((2 : Vtx), (1 : Nat)), (3, 2), (1, 2), (4, 1)] = some 1 ∧
    List.lookup 3 [((2 : Vtx), (1 : Nat)), (3, 2), (1, 2), (4, 1)] = some 2 ∧
    List.lookup 4 [((2 : Vtx), (1 : Nat)), (3, 2), (1, 2), (4, 1)] = some 1 := by
  decide

/-- C7, counterexample: on the accepted asymmetric graph
`{1: [2], 2: [3], 3: []}` the first vertex colored is 1, and at the start
of the first main-loop iteration the uncolored vertex 2 has no colored
neighbor in its own list, yet its stored DSAT is 0, not its degree 1:
the stated invariant fails. -/
theorem C7_counterexample :
    pyMaxBy (· < ·) (degree [(1, [2]), (2, [3]), (3, [])])
        (verts [(1, [2]), (2, [3]), (3, [])]) = some 1 ∧
    ¬ DsatOK [(1, [2]), (2, [3]), (3, [])]
        (loop [(1, [2]), (2, [3]), (3, [])] 0
          (initState [(1, [2]), (2, [3]), (3, [])] 1)) := by
  constructor
  · decide
  · intro h
    have h2 := h 2 (by decide)
    revert h2
    decide

/-- C7 (amended): when the adjacency is symmetric, the stored DSAT of
every uncolored vertex, at the start of every main-loop iteration, equals
the number of distinct colors among its colored neighbors, falling back
to its degree when it has no colored neighbor. -/
theorem C7_dsat_invariant (g : Graph) (first : Vtx) (n : Nat)
    (hsym : SymAdj g) (hnd : (verts g).Nodup)
    (hfirst : pyMaxBy (· < ·) (degree g) (verts g) = some first) :
    DsatOK g (loop g n (initState g first)) :=
  loop_dsatOK hsym hnd n _ (initState_inv hfirst)
    (initState_dsatOK hsym hnd)

theorem C7_witness :
    (loop path4 1 (initState path4 2)).dsat 4
      = if usedColors (loop path4 1 (initState path4 2)).colors
            (adj path4 4) = ∅
        then degree path4 4
        else (usedColors (loop path4 1 (initState path4 2)).colors
            (adj path4 4)).card :=
  C7_dsat_invariant path4 2 1 (symAdj_of_symAdjB (by decide)) (by decide)
    (by decide) 4 (by decide)

/-- C8: the run is a pure function of the graph: two runs on the same
graph return the same assignment. -/
theorem C8_deterministic (g : Graph) (a₁ a₂ : Coloring)
    (h₁ : dsatur g = some a₁) (h₂ : dsatur g = some a₂) : a₁ = a₂ :=
  Option.some.inj (h₁.symm.trans h₂)

theorem C8_witness :
    ([(2, 1), (3, 2), (1, 2), (4, 1)] : Coloring)
      = [(2, 1), (3, 2), (1, 2), (4, 1)] :=
  C8_deterministic path4 [(2, 1), (3, 2), (1, 2), (4, 1)]
    [(2, 1), (3, 2), (1, 2), (4, 1)] (by decide) (by decide)

/-- C9: in every accepted graph, a vertex with an empty neighbor list is
assigned color 1. -/
theorem C9_isolated_gets_color_one (g : Graph) (a : Coloring) (v : Vtx)
    (c : Nat) (hnd : (verts g).Nodup) (hrun : dsatur g = some a)
    (hmem : (v, c) ∈ a) (hiso : adj g v = []) : c = 1 := by
  obtain ⟨s, rfl, -, hinv⟩ := dsatur_some_inv hnd hrun
  exact hinv.iso v c hmem hiso

theorem C9_witness :
    dsatur [(1, [2]), (2, [1]), (3, [])] = some [(1, 1), (2, 2), (3, 1)] ∧
    (1 : Nat) = 1 :=
  ⟨by decide,
   C9_isolated_gets_color_one [(1, [2]), (2, [1]), (3, [])]
     [(1, 1), (2, 2), (3, 1)] 3 1 (by decide) (by decide) (by decide)
     (by decide)⟩

/-- C10: a self-loop does not cause a failure: the run still returns an
assignment covering every vertex; at assignment time the vertex is not
yet colored, so the self-loop contributes nothing to its own used-color
set; and the self-loop does inflate the degree used for selection. -/
theorem C10_self_loop_tolerated (g : Graph) (v : Vtx)
    (hnd : (verts g).Nodup) (hself : v ∈ adj g v)
    (hvalid : ∀ u ∈ verts g, ∀ w ∈ adj g u, w ∈ verts g) :
    dsatur g ≠ none ∧
    (∀ a, dsatur g = some a → (a.map Prod.fst).Perm (verts g)) ∧
    (∀ cs : Coloring, cs.lookup v = none →
      usedColors cs (adj g v)
        = usedColors cs ((adj g v).filter (fun w => w ≠ v))) ∧
    ((adj g v).filter (fun w => w ≠ v)).length < degree g v := by
  refine ⟨?_, ?_, ?_, length_filter_ne_lt hself⟩
  · intro hnone
    rw [dsatur_eq_none_iff] at hnone
    subst hnone
    rw [show adj [] v = [] from rfl] at hself
    cases hself
  · intro a hrun
    exact dsatur_keys_perm hnd hrun
  · intro cs hcs
    exact usedColors_filter_self _ hcs

theorem C10_witness :
    dsatur [(1, [1, 2]), (2, [1])] ≠ none ∧
    usedColors [] (adj [(1, [1, 2]), (2, [1])] 1)
      = usedColors []
          ((adj [(1, [1, 2]), (2, [1])] 1).filter (fun w => w ≠ 1)) ∧
    ((adj [(1, [1, 2]), (2, [1])] 1).filter (fun w => w ≠ 1)).length
      < degree [(1, [1, 2]), (2, [1])] 1 := by
  have h := C10_self_loop_tolerated [(1, [1, 2]), (2, [1])] 1
    (by decide) (by decide) (by decide)
  exact ⟨h.1, h.2.2.1 [] rfl, h.2.2.2⟩
